import Mathlib

/-!
Verification of the FrequencyCanvas oscillator-bank and DFT core: a shallow
embedding of `src/utils/math.ts` (`computeDFT`), the oscillator model of
`src/App.tsx` (`updateWave`), the reconstruction sum of
`src/components/Fourier/FourierLab.tsx`, the renderer evaluators of
`MasterOutput`, the audio parameter mapping of `src/hooks/useAudio.ts`, and
the paint brush of `src/components/Fourier/DrawingCanvas.tsx`.
JavaScript numbers are modelled as real numbers.
-/

open Real Filter

noncomputable section

namespace FrequencyCanvas

/-- JavaScript `Math.atan2 y x`: the argument of the complex number `x + y*I`. -/
def atan2 (y x : ℝ) : ℝ := Complex.arg ⟨x, y⟩

/-- The `Wave` record of `src/types` (one oscillator of the bank). -/
structure Wave where
  id : ℕ
  freq : ℝ
  amp : ℝ
  phase : ℝ
  color : String
  muted : Bool

instance : Inhabited Wave := ⟨⟨0, 0, 0, 0, "", false⟩⟩

/-- The `DFTCoefficient` record of `src/types`. -/
structure DFTCoefficient where
  freq : ℕ
  amp : ℝ
  phase : ℝ

instance : Inhabited DFTCoefficient := ⟨⟨0, 0, 0⟩⟩

/-- Accumulated `re` of the `computeDFT` inner loop, after the final `re = re / N`:
`re += signal[n] * cos(2*PI*k*n/N)` for `n < N`, then divided by `N`. -/
def dftRe (signal : List ℝ) (k : ℕ) : ℝ :=
  (∑ n ∈ Finset.range signal.length,
    signal.getD n 0 * Real.cos (2 * π * k * n / signal.length)) / signal.length

/-- Accumulated `im` of the `computeDFT` inner loop, after the final `im = im / N`:
`im -= signal[n] * sin(2*PI*k*n/N)` for `n < N`, then divided by `N`. -/
def dftIm (signal : List ℝ) (k : ℕ) : ℝ :=
  (-∑ n ∈ Finset.range signal.length,
    signal.getD n 0 * Real.sin (2 * π * k * n / signal.length)) / signal.length

/-- One iteration of the outer `computeDFT` loop: the coefficient pushed for
harmonic `k` (`freq = k`, `amp = sqrt(re*re+im*im)` doubled for `k != 0`,
`phase = atan2(im, re)`). -/
def dftCoefficient (signal : List ℝ) (k : ℕ) : DFTCoefficient :=
  let re := dftRe signal k
  let im := dftIm signal k
  let amp := Real.sqrt (re * re + im * im)
  { freq := k, amp := if k ≠ 0 then amp * 2 else amp, phase := atan2 im re }

/-- `computeDFT` from `src/utils/math.ts` (the JS default for `maxHarmonics`
is `100`). -/
def computeDFT (signal : List ℝ) (maxHarmonics : ℕ) : List DFTCoefficient :=
  (List.range maxHarmonics).map (dftCoefficient signal)

/-- The reconstruction sum drawn by `FourierLab` (lines 80-95): for the first
`harmonics` coefficients (stopping early when the coefficient list runs out),
`yVal += c.amp * cos(2*PI*c.freq*t + c.phase)`. -/
def reconstruct (coefficients : List DFTCoefficient) (harmonics : ℕ) (t : ℝ) : ℝ :=
  ∑ k ∈ Finset.range (min harmonics coefficients.length),
    (coefficients.getD k default).amp *
      Real.cos (2 * π * (coefficients.getD k default).freq * t +
        (coefficients.getD k default).phase)

/-- Residual energy of the order-`K` reconstruction against the signal at the
sample points `t = n/N` (the quantity of claim C2). -/
def residualEnergy (signal : List ℝ) (K : ℕ) : ℝ :=
  ∑ n ∈ Finset.range signal.length,
    (signal.getD n 0 - reconstruct (computeDFT signal K) K (n / signal.length)) ^ 2

/-- A `Partial<Wave>` as passed to `updateWave`: every field optional. -/
structure WavePartial where
  id : Option ℕ
  freq : Option ℝ
  amp : Option ℝ
  phase : Option ℝ
  color : Option String
  muted : Option Bool

/-- The empty partial update `{}`. -/
def WavePartial.none : WavePartial := ⟨Option.none, Option.none, Option.none,
  Option.none, Option.none, Option.none⟩

/-- JavaScript object spread `{ ...w, ...updates }`: present fields of the
partial override the wave's fields. -/
def applyPartial (w : Wave) (u : WavePartial) : Wave :=
  { id := u.id.getD w.id, freq := u.freq.getD w.freq, amp := u.amp.getD w.amp,
    phase := u.phase.getD w.phase, color := u.color.getD w.color,
    muted := u.muted.getD w.muted }

/-- `updateWave` from `src/App.tsx` lines 30-32:
`waves.map(w => w.id === id ? { ...w, ...updates } : w)`. -/
def updateWave (waves : List Wave) (id : ℕ) (updates : WavePartial) : List Wave :=
  waves.map (fun w => if w.id = id then applyPartial w updates else w)

/-! ### Claim C9: shape of the computeDFT output -/

/-- Claim C9: for every input signal, independently of its length,
`computeDFT signal maxHarmonics` returns exactly `maxHarmonics` coefficients
and the coefficient at every position `k` has `freq` field equal to `k`;
no precondition `maxHarmonics ≤ signal.length` is enforced. -/
theorem computeDFT_length_and_freq (signal : List ℝ) (maxHarmonics : ℕ) :
    (computeDFT signal maxHarmonics).length = maxHarmonics ∧
      ∀ k : ℕ, ∀ hk : k < (computeDFT signal maxHarmonics).length,
        ((computeDFT signal maxHarmonics).get ⟨k, hk⟩).freq = k := by
  constructor
  · simp [computeDFT]
  · intro k hk
    simp [computeDFT, dftCoefficient]

/-! ### Claim C7: computeDFT on the empty signal -/

/-- Claim C7 counterexample: for the zero-length signal the result of
`computeDFT` with the default `maxHarmonics = 100` is not empty (it has 100
entries), contradicting the claimed empty result. -/
theorem computeDFT_nil_ne_nil : computeDFT ([] : List ℝ) 100 ≠ [] := by
  intro h
  have hl : (computeDFT ([] : List ℝ) 100).length = 100 := by simp [computeDFT]
  rw [h] at hl
  simp at hl

/-- Claim C7 amended: for every signal of length `N = 0`, `computeDFT` still
returns `maxHarmonics` coefficients, one per harmonic index, rather than an
empty sequence (in the JS source their `amp`/`phase` values are `NaN`, since
`re` and `im` are divided by `N = 0`). -/
theorem computeDFT_nil_length (signal : List ℝ) (h : signal.length = 0)
    (maxHarmonics : ℕ) :
    (computeDFT signal maxHarmonics).length = maxHarmonics := by
  simp [computeDFT]

/-- Claim C7 amended, witness at `signal = []`, `maxHarmonics = 100`. -/
theorem computeDFT_nil_length_witness :
    ([] : List ℝ).length = 0 ∧ (computeDFT ([] : List ℝ) 100).length = 100 :=
  ⟨rfl, computeDFT_nil_length [] rfl 100⟩

/-! ### Claim C1: the components of computeDFT against the spec formulas -/

/-- The spec's formula `re = (1/N) * sum_n signal[n] * cos(2*pi*k*n/N)`. -/
def specRe (signal : List ℝ) (k : ℕ) : ℝ :=
  (1 / signal.length) * ∑ n ∈ Finset.range signal.length,
    signal.getD n 0 * Real.cos (2 * π * k * n / signal.length)

/-- The spec's formula `im = -(1/N) * sum_n signal[n] * sin(2*pi*k*n/N)`. -/
def specIm (signal : List ℝ) (k : ℕ) : ℝ :=
  -((1 / signal.length) * ∑ n ∈ Finset.range signal.length,
    signal.getD n 0 * Real.sin (2 * π * k * n / signal.length))

theorem specRe_eq_dftRe (signal : List ℝ) (k : ℕ) : specRe signal k = dftRe signal k := by
  rw [specRe, dftRe]; ring

theorem specIm_eq_dftIm (signal : List ℝ) (k : ℕ) : specIm signal k = dftIm signal k := by
  rw [specIm, dftIm]; ring

/-- Claim C1: for every signal of length `N > 0` and every `maxComponents K`,
`computeDFT` returns exactly `K` components ordered by harmonic index
ascending (the `k`-th has `freq = k`), with amplitude
`sqrt(re^2 + im^2)` for `re = (1/N)*sum signal[n]*cos(2*pi*k*n/N)` and
`im = -(1/N)*sum signal[n]*sin(2*pi*k*n/N)`, doubled for `k > 0` and left
undoubled for `k = 0`, and phase `atan2 im re`. -/
theorem computeDFT_matches_spec (signal : List ℝ) (K : ℕ) (hN : 0 < signal.length) :
    (computeDFT signal K).length = K ∧
      ∀ k : ℕ, ∀ hk : k < (computeDFT signal K).length,
        ((computeDFT signal K).get ⟨k, hk⟩).freq = k ∧
        ((computeDFT signal K).get ⟨k, hk⟩).amp =
          (if k = 0 then 1 else 2) *
            Real.sqrt (specRe signal k ^ 2 + specIm signal k ^ 2) ∧
        ((computeDFT signal K).get ⟨k, hk⟩).phase =
          atan2 (specIm signal k) (specRe signal k) := by
  refine ⟨by simp [computeDFT], ?_⟩
  intro k hk
  have hget : (computeDFT signal K).get ⟨k, hk⟩ = dftCoefficient signal k := by
    simp [computeDFT]
  rw [hget]
  refine ⟨rfl, ?_, ?_⟩
  · rw [dftCoefficient]
    simp only [specRe_eq_dftRe, specIm_eq_dftIm, sq]
    rcases eq_or_ne k 0 with h0 | h0
    · simp [h0]
    · rw [if_pos h0, if_neg h0, mul_comm]
  · rw [dftCoefficient]
    simp only [specRe_eq_dftRe, specIm_eq_dftIm]

/-- Claim C1, witness at `signal = [1]`, `K = 1`. -/
theorem computeDFT_matches_spec_witness :
    0 < ([(1 : ℝ)]).length ∧ (computeDFT [(1 : ℝ)] 1).length = 1 :=
  ⟨by norm_num, (computeDFT_matches_spec [(1 : ℝ)] 1 (by norm_num)).1⟩

/-! ### Claim C3: the DC component's amplitude -/

theorem dftIm_zero (signal : List ℝ) : dftIm signal 0 = 0 := by
  simp [dftIm]

theorem dftRe_zero (signal : List ℝ) :
    dftRe signal 0 = (∑ n ∈ Finset.range signal.length, signal.getD n 0) / signal.length := by
  simp [dftRe]

/-- Claim C3 counterexample: for the signal `[-1]` the DC component's
amplitude is `1`, while the arithmetic mean is `-1`; the amplitude is the
absolute value of the mean, not the mean. -/
theorem dc_amp_ne_mean :
    ((computeDFT [(-1 : ℝ)] 1).getD 0 default).amp = 1 ∧
      (∑ n ∈ Finset.range ([(-1 : ℝ)]).length, ([(-1 : ℝ)]).getD n 0) /
        ([(-1 : ℝ)]).length = -1 ∧
      (1 : ℝ) ≠ -1 := by
  refine ⟨?_, by norm_num, by norm_num⟩
  show (dftCoefficient [(-1 : ℝ)] 0).amp = 1
  rw [dftCoefficient]
  simp [dftRe, dftIm]

/-- Claim C3 amended: for every signal of length `N > 0` the DC component
(`harmonicIndex = 0`) of `computeDFT` has amplitude equal to the absolute
value of the arithmetic mean `(1/N)*sum signal[n]`, not doubled; in
particular it equals the mean itself whenever the mean is non-negative
(e.g. for drawing-surface signals, whose samples lie in `[0,1]`). -/
theorem dc_amp_eq_abs_mean (signal : List ℝ) (hN : 0 < signal.length) (K : ℕ)
    (hK : 0 < K) :
    ((computeDFT signal K).getD 0 default).amp =
      |(∑ n ∈ Finset.range signal.length, signal.getD n 0) / signal.length| ∧
    (0 ≤ (∑ n ∈ Finset.range signal.length, signal.getD n 0) / signal.length →
      ((computeDFT signal K).getD 0 default).amp =
        (∑ n ∈ Finset.range signal.length, signal.getD n 0) / signal.length) := by
  obtain ⟨m, rfl⟩ : ∃ m, K = m + 1 := ⟨K - 1, (Nat.succ_pred_eq_of_pos hK).symm⟩
  have hget : (computeDFT signal (m + 1)).getD 0 default = dftCoefficient signal 0 := by
    simp [computeDFT, List.range_succ_eq_map]
  rw [hget, dftCoefficient]
  simp only [ne_eq, not_true_eq_false, ite_false, dftIm_zero, dftRe_zero,
    mul_zero, add_zero]
  constructor
  · rw [Real.sqrt_mul_self_eq_abs]
  · intro hmean
    rw [Real.sqrt_mul_self_eq_abs, abs_of_nonneg hmean]

/-- Claim C3 amended, witness at `signal = [1]`, `K = 1`. -/
theorem dc_amp_eq_abs_mean_witness :
    0 < ([(1 : ℝ)]).length ∧ 0 < 1 ∧
      ((computeDFT [(1 : ℝ)] 1).getD 0 default).amp =
        |(∑ n ∈ Finset.range ([(1 : ℝ)]).length, ([(1 : ℝ)]).getD n 0) /
          ([(1 : ℝ)]).length| :=
  ⟨by norm_num, by norm_num, (dc_amp_eq_abs_mean [(1 : ℝ)] (by norm_num) 1 (by norm_num)).1⟩

/-! ### Claim C4: updateWave performs no normalization -/

/-- The partial update `{ amp: a, phase: p }`. -/
def WavePartial.ampPhase (a p : ℝ) : WavePartial :=
  ⟨Option.none, Option.none, some a, some p, Option.none, Option.none⟩

/-- Claim C4 counterexample: updating the wave with id 1 by
`{ amp: -5, phase: 370 }` stores amplitude `-5` (not the claimed clamp to 0)
and phase `370` (not the claimed wrap to 10). -/
theorem updateWave_counterexample :
    ((updateWave [⟨1, 2, 50, 0, "", false⟩] 1 (WavePartial.ampPhase (-5) 370)).getD 0
        default).amp = -5 ∧
    ((updateWave [⟨1, 2, 50, 0, "", false⟩] 1 (WavePartial.ampPhase (-5) 370)).getD 0
        default).phase = 370 ∧
    (-5 : ℝ) ≠ 0 ∧ (370 : ℝ) ≠ 10 := by
  refine ⟨?_, ?_, by norm_num, by norm_num⟩ <;>
    simp [updateWave, WavePartial.ampPhase, applyPartial]

/-- Claim C4 amended: `updateWave` merges a partial update verbatim: the
stored amplitude and phase are exactly the written values, with no clamping
of the amplitude into `[0,100]` and no wrapping of the phase modulo 360
(writing amplitude -5 stores -5 and phase 370 stores 370); waves whose id
does not match are unchanged. Range maintenance is left to the UI sliders. -/
theorem updateWave_verbatim (ws : List Wave) (i : ℕ) (a p : ℝ) (j : ℕ)
    (hj : j < ws.length) :
    (updateWave ws i (WavePartial.ampPhase a p)).getD j default =
      (if (ws.get ⟨j, hj⟩).id = i
       then { ws.get ⟨j, hj⟩ with amp := a, phase := p }
       else ws.get ⟨j, hj⟩) := by
  have hj2 : j < (updateWave ws i (WavePartial.ampPhase a p)).length := by
    simpa [updateWave] using hj
  rw [List.getD_eq_getElem _ _ hj2]
  simp only [updateWave, List.getElem_map]
  have : ws[j] = ws.get ⟨j, hj⟩ := rfl
  rw [this]
  rcases eq_or_ne (ws.get ⟨j, hj⟩).id i with h | h
  · rw [if_pos h, if_pos h]
    cases ws.get ⟨j, hj⟩
    simp [applyPartial, WavePartial.ampPhase]
  · rw [if_neg h, if_neg h]

/-- Claim C4 amended, witness: the update `{ amp: -5, phase: 370 }` on the
one-wave bank stores those values verbatim. -/
theorem updateWave_verbatim_witness :
    0 < ([(⟨1, 2, 50, 0, "", false⟩ : Wave)]).length ∧
      (updateWave [⟨1, 2, 50, 0, "", false⟩] 1 (WavePartial.ampPhase (-5) 370)).getD 0
          default = ⟨1, 2, -5, 370, "", false⟩ := by
  refine ⟨by norm_num, ?_⟩
  rw [updateWave_verbatim [⟨1, 2, 50, 0, "", false⟩] 1 (-5) 370 0 (by norm_num)]
  simp

/-! ### The oscillator bank and the renderer evaluators of MasterOutput -/

/-- The `isActive` helper of `MasterOutput`: `!w.muted && w.amp > 0`. -/
def isActive (w : Wave) : Bool := !w.muted && decide (0 < w.amp)

/-- The active subset `waves.filter(isActive)`. -/
def activeWaves (waves : List Wave) : List Wave := waves.filter isActive

/-- The time-domain renderer's summed sample (`MasterOutput` time mode,
inner loop): `ySum += (amp/100) * (height/2.5) * sin(2*PI*freq*t + phaseRad
- time*2)` over the active waves. -/
def timeYSum (active : List Wave) (h t time : ℝ) : ℝ :=
  (active.map (fun w =>
    (w.amp / 100) * (h / 2.5) *
      Real.sin (2 * π * w.freq * t + w.phase * π / 180 - time * 2))).sum

/-- The time-domain renderer's polyline of vertical offsets, including its
empty-bank guard (an empty polyline) and the `min(1, 120/sumAmp)`
auto-scaling. -/
def timeCurve (waves : List Wave) (width : ℕ) (h time : ℝ) : List ℝ :=
  if (activeWaves waves).length = 0 then []
  else
    let maxPossibleAmp := ((activeWaves waves).map (fun w => w.amp)).sum
    let scale := if 120 < maxPossibleAmp then 120 / maxPossibleAmp else 1
    (List.range width).map (fun x =>
      timeYSum (activeWaves waves) h ((x : ℝ) / width) time * scale)

/-- The Lissajous (XY) renderer's 500-segment trailing polyline, including
its empty-bank guard: X from the first active wave, Y from the normalized
sum of the remaining active waves. -/
def lissajousPoints (waves : List Wave) (time radius cx cy : ℝ) : List (ℝ × ℝ) :=
  match activeWaves waves with
  | [] => []
  | xWave :: yWaves =>
    (List.range 500).map (fun i =>
      let t := time - 2.0 * (1 - (i : ℝ) / 500)
      let xVal := Real.sin (2 * π * xWave.freq * t + xWave.phase * π / 180)
      let yVal :=
        if 0 < yWaves.length then
          (let yMaxAmp := (yWaves.map (fun w => w.amp)).sum
           let yM := if yMaxAmp = 0 then 1 else yMaxAmp
           ((yWaves.map (fun w =>
             w.amp * Real.sin (2 * π * w.freq * t + w.phase * π / 180))).sum) / yM)
        else 0
      (cx + xVal * radius, cy - yVal * radius))

/-- One axis value of the XYZ renderer: `sin(freq*t*0.2 + phase)` from the
`i`-th active wave, or `0` when fewer than `i+1` waves are active. -/
def xyzAxisValue (waves : List Wave) (i : ℕ) (t : ℝ) : ℝ :=
  match (activeWaves waves).get? i with
  | some w => Real.sin (w.freq * t * 0.2 + w.phase * π / 180)
  | Option.none => 0

/-- The Chladni renderer's `reSum` at a grid cell. -/
def chladniRe (waves : List Wave) (time nx ny : ℝ) : ℝ :=
  ((activeWaves waves).map (fun w =>
    w.amp * (Real.cos (w.freq * 2.0 * π * nx) + Real.cos (w.freq * 2.0 * π * ny)) *
      Real.cos (w.phase * π / 180 - time * w.freq * 5))).sum

/-- The Chladni renderer's `imSum` at a grid cell. -/
def chladniIm (waves : List Wave) (time nx ny : ℝ) : ℝ :=
  ((activeWaves waves).map (fun w =>
    w.amp * (Real.cos (w.freq * 2.0 * π * nx) + Real.cos (w.freq * 2.0 * π * ny)) *
      Real.sin (w.phase * π / 180 - time * w.freq * 5))).sum

/-- The Chladni renderer's normalizer `totalAmp` with its zero guard
(`totalAmp === 0 ? 1 : totalAmp`). -/
def chladniTotalAmp (waves : List Wave) : ℝ :=
  let totalAmp := ((activeWaves waves).map (fun w => w.amp)).sum * 2
  if totalAmp = 0 then 1 else totalAmp

/-- The Chladni renderer's pixel intensity: normalized magnitude clamped to
1 and raised to the contrast exponent 1.5. -/
def chladniIntensity (waves : List Wave) (time nx ny : ℝ) : ℝ :=
  let magnitude := Real.sqrt (chladniRe waves time nx ny * chladniRe waves time nx ny +
    chladniIm waves time nx ny * chladniIm waves time nx ny)
  let normalizedAmp := magnitude / chladniTotalAmp waves
  let val := min 1 normalizedAmp
  val ^ (1.5 : ℝ)

/-- The water-ripple renderer's height `h` at normalized radius `rNorm`:
outward wave minus the damped (0.7) boundary-reflected inward wave, summed
over the active waves. -/
def waterHeight (waves : List Wave) (time rNorm : ℝ) : ℝ :=
  ((activeWaves waves).map (fun w =>
    w.amp * (Real.sin (w.freq * 0.5 * (rNorm * 20) - time * (w.freq * 8) +
        w.phase * π / 180) -
      Real.sin (w.freq * 0.5 * ((2 - rNorm) * 20) - time * (w.freq * 8) +
        w.phase * π / 180) * 0.7))).sum

/-- The fluid-mesh renderer's height at normalized grid coordinates
`(nx, nz)`: the phasor magnitude compressed through the two-piece
shear-thickening function, with the explicit empty-bank guard (`h = 0`). -/
def fluidHeight (waves : List Wave) (time nx nz : ℝ) : ℝ :=
  if 0 < (activeWaves waves).length then
    let reSum := ((activeWaves waves).map (fun w =>
      w.amp * (Real.cos (w.freq * π / (63 / 2) * Real.sqrt (nx * nx + nz * nz) * 5) +
        Real.cos (w.freq * π / (63 / 2) * nx * 2)) *
        Real.cos (w.phase * π / 180 - time * w.freq * 8))).sum
    let imSum := ((activeWaves waves).map (fun w =>
      w.amp * (Real.cos (w.freq * π / (63 / 2) * Real.sqrt (nx * nx + nz * nz) * 5) +
        Real.cos (w.freq * π / (63 / 2) * nx * 2)) *
        Real.sin (w.phase * π / 180 - time * w.freq * 8))).sum
    let mag := Real.sqrt (reSum * reSum + imSum * imSum)
    if 15 < mag then -((mag - 15) ^ (1.2 : ℝ)) * 1.5 else -Real.sin mag * 2
  else 0

/-! ### Claim C5: destructive cancellation in the time renderer -/

/-- The two-oscillator bank of claim C5: equal frequency and amplitude,
phases 0 and 180 degrees. -/
def cancellationBank : List Wave := [⟨1, 5, 50, 0, "", false⟩, ⟨2, 5, 50, 180, "", false⟩]

theorem activeWaves_cancellationBank : activeWaves cancellationBank = cancellationBank := by
  simp only [activeWaves, cancellationBank, List.filter, isActive]
  norm_num

/-- Claim C5: for the bank `{freq=5, amp=50, phase=0}`, `{freq=5, amp=50,
phase=180}` the time renderer's summed value is exactly 0 for every sample
position and every simulation time, hence below 10 percent of the summed
amplitude (100). -/
theorem time_destructive_cancellation (h t time : ℝ) :
    timeYSum (activeWaves cancellationBank) h t time = 0 ∧
      |timeYSum (activeWaves cancellationBank) h t time| <
        0.1 * ((activeWaves cancellationBank).map (fun w => w.amp)).sum := by
  have hzero : timeYSum (activeWaves cancellationBank) h t time = 0 := by
    rw [activeWaves_cancellationBank]
    simp only [timeYSum, cancellationBank, List.map_cons, List.map_nil, List.sum_cons,
      List.sum_nil]
    have hB : 2 * π * (5 : ℝ) * t + 180 * π / 180 - time * 2 =
        (2 * π * (5 : ℝ) * t + 0 * π / 180 - time * 2) + π := by ring
    rw [hB, Real.sin_add_pi]
    ring
  refine ⟨hzero, ?_⟩
  rw [hzero, activeWaves_cancellationBank]
  simp only [cancellationBank, List.map_cons, List.map_nil, List.sum_cons, List.sum_nil]
  norm_num

/-! ### Claim C6: all renderers are neutral on an empty active bank -/

/-- Claim C6: whenever the active subset of the bank is empty (no
oscillators, or all muted or at zero amplitude), every renderer produces its
well-defined neutral buffer: the time and Lissajous polylines are empty, the
XYZ axis values are 0 (a centered point), and the Chladni, water and
fluid-mesh fields are identically 0 (uniform quiet field, flat mesh); in
particular no value is undefined and no error is raised. -/
theorem renderers_neutral_on_empty (waves : List Wave)
    (hws : activeWaves waves = []) :
    (∀ (width : ℕ) (h time : ℝ), timeCurve waves width h time = []) ∧
    (∀ time radius cx cy : ℝ, lissajousPoints waves time radius cx cy = []) ∧
    (∀ (i : ℕ) (t : ℝ), xyzAxisValue waves i t = 0) ∧
    (∀ time nx ny : ℝ, chladniIntensity waves time nx ny = 0) ∧
    (∀ time rNorm : ℝ, waterHeight waves time rNorm = 0) ∧
    (∀ time nx nz : ℝ, fluidHeight waves time nx nz = 0) := by
  refine ⟨?_, ?_, ?_, ?_, ?_, ?_⟩
  · intro width h time
    rw [timeCurve, if_pos (by rw [hws]; rfl)]
  · intro time radius cx cy
    rw [lissajousPoints]
    rw [hws]
  · intro i t
    rw [xyzAxisValue, hws]
    simp
  · intro time nx ny
    rw [chladniIntensity, chladniRe, chladniIm, chladniTotalAmp, hws]
    simp only [List.map_nil, List.sum_nil, mul_zero, zero_mul, add_zero, zero_div,
      Real.sqrt_zero, ite_true, if_pos rfl]
    rw [min_eq_right (by norm_num : (0:ℝ) ≤ 1)]
    exact Real.zero_rpow (by norm_num)
  · intro time rNorm
    rw [waterHeight, hws]
    simp
  · intro time nx nz
    rw [fluidHeight, hws]
    simp

/-- Claim C6 witness: a bank of one muted wave and one zero-amplitude wave
has an empty active subset, and the renderers are neutral there. -/
theorem renderers_neutral_on_empty_witness :
    activeWaves [⟨1, 5, 50, 0, "", true⟩, ⟨2, 5, 0, 0, "", false⟩] = [] ∧
      timeCurve [⟨1, 5, 50, 0, "", true⟩, ⟨2, 5, 0, 0, "", false⟩] 10 1 0 = [] ∧
      chladniIntensity [⟨1, 5, 50, 0, "", true⟩, ⟨2, 5, 0, 0, "", false⟩] 0 0 0 = 0 := by
  have hws : activeWaves [(⟨1, 5, 50, 0, "", true⟩ : Wave), ⟨2, 5, 0, 0, "", false⟩] = [] := by
    simp only [activeWaves, List.filter, isActive]
    norm_num
  exact ⟨hws, (renderers_neutral_on_empty _ hws).1 10 1 0,
    (renderers_neutral_on_empty _ hws).2.2.2.1 0 0 0⟩

/-! ### Claim C8: the audio parameter mapper -/

/-- The fixed audio frequency multiplier of `src/hooks/useAudio.ts`. -/
def FREQ_MULTIPLIER : ℝ := 20

/-- The target frequency handed to `osc.frequency.setTargetAtTime`:
`wave.freq * FREQ_MULTIPLIER`. -/
def audioFreq (w : Wave) : ℝ := w.freq * FREQ_MULTIPLIER

/-- The target gain handed to `gain.gain.setTargetAtTime`:
`wave.muted ? 0 : wave.amp / 100`. -/
def targetGain (w : Wave) : ℝ := if w.muted then 0 else w.amp / 100

/-- The smoothing time constant (seconds) passed to `setTargetAtTime`. -/
def smoothingTimeConstant : ℝ := 0.05

/-- Exponential approach of the Web Audio `AudioParam.setTargetAtTime`
primitive (an external host service): starting from `v0` at time `t0`, the
parameter value at time `t` is `target + (v0 - target) * exp(-(t - t0)/tau)`. -/
def setTargetAtTime (v0 target t0 τ t : ℝ) : ℝ :=
  target + (v0 - target) * Real.exp (-(t - t0) / τ)

theorem setTargetAtTime_tendsto (v0 target t0 τ : ℝ) (hτ : 0 < τ) :
    Tendsto (fun t => setTargetAtTime v0 target t0 τ t) atTop (nhds target) := by
  have h1 : Tendsto (fun t : ℝ => -(t - t0) / τ) atTop atBot := by
    apply Tendsto.atBot_div_const hτ
    have : Tendsto (fun t : ℝ => -t + t0) atTop atBot :=
      tendsto_atBot_add_const_right atTop t0 tendsto_neg_atTop_atBot
    refine this.congr (fun t => by ring)
  have h2 : Tendsto (fun t : ℝ => Real.exp (-(t - t0) / τ)) atTop (nhds 0) :=
    Real.tendsto_exp_atBot.comp h1
  have h3 : Tendsto (fun t : ℝ => target + (v0 - target) * Real.exp (-(t - t0) / τ))
      atTop (nhds (target + (v0 - target) * 0)) :=
    tendsto_const_nhds.add (tendsto_const_nhds.mul h2)
  simpa [setTargetAtTime] using h3

theorem setTargetAtTime_ne (v0 target t0 τ t : ℝ) (hv : v0 ≠ target) :
    setTargetAtTime v0 target t0 τ t ≠ target := by
  rw [setTargetAtTime]
  intro hcontra
  have h0 : (v0 - target) * Real.exp (-(t - t0) / τ) = 0 := by linarith
  rcases mul_eq_zero.mp h0 with h | h
  · exact hv (by linarith)
  · exact Real.exp_ne_zero _ h

/-- Claim C8: each oscillator's tone generator targets frequency
`freq * FREQ_MULTIPLIER` (the constant 20) and gain 0 when muted, else
`amp/100`; for the bank entry `{freq=10, amp=100}` this is frequency 200 and
gain 1.0; both targets are approached exponentially with time constant 0.05
(never reached from a different start, tending to the target as time grows)
rather than set instantaneously. -/
theorem audio_parameter_mapping (w : Wave) (v0 t0 t : ℝ)
    (hv : v0 ≠ targetGain w) :
    audioFreq w = w.freq * 20 ∧
    targetGain w = (if w.muted then 0 else w.amp / 100) ∧
    audioFreq ⟨1, 10, 100, 0, "", false⟩ = 200 ∧
    targetGain ⟨1, 10, 100, 0, "", false⟩ = 1 ∧
    setTargetAtTime v0 (targetGain w) t0 smoothingTimeConstant t ≠ targetGain w ∧
    Tendsto (fun u => setTargetAtTime v0 (targetGain w) t0 smoothingTimeConstant u)
      atTop (nhds (targetGain w)) := by
  refine ⟨rfl, rfl, ?_, ?_, ?_, ?_⟩
  · norm_num [audioFreq, FREQ_MULTIPLIER]
  · norm_num [targetGain]
  · exact setTargetAtTime_ne v0 (targetGain w) t0 smoothingTimeConstant t hv
  · exact setTargetAtTime_tendsto v0 (targetGain w) t0 smoothingTimeConstant
      (by norm_num [smoothingTimeConstant])

/-- Claim C8 witness at `w = {freq=10, amp=100}`, `v0 = 0`, `t0 = 0`, `t = 1`. -/
theorem audio_parameter_mapping_witness :
    (0 : ℝ) ≠ targetGain ⟨1, 10, 100, 0, "", false⟩ ∧
      audioFreq ⟨1, 10, 100, 0, "", false⟩ = 200 := by
  have hv : (0 : ℝ) ≠ targetGain ⟨1, 10, 100, 0, "", false⟩ := by
    norm_num [targetGain]
  exact ⟨hv, (audio_parameter_mapping ⟨1, 10, 100, 0, "", false⟩ 0 0 1 hv).2.2.1⟩

/-! ### Claim C10: the DrawingCanvas paint brush keeps samples in [0,1] -/

/-- The brush center index of `handlePointerMove` in `DrawingCanvas`:
`Math.min(Math.floor((x / rect.width) * data.length), data.length - 1)`
with `x` the pointer position clamped into `[0, rect.width]`. -/
def brushIndex (data : List ℝ) (clientX rectLeft rectW : ℝ) : ℤ :=
  min ⌊max 0 (min (clientX - rectLeft) rectW) / rectW * (data.length : ℝ)⌋
    ((data.length : ℤ) - 1)

/-- The brush radius of `handlePointerMove`:
`Math.floor(data.length * 0.05)`. -/
def brushRadius (data : List ℝ) : ℤ := ⌊(data.length : ℝ) * 0.05⌋

/-- The clamped, flipped pointer height of `handlePointerMove`:
`1 - y / rect.height` with `y` clamped into `[0, rect.height]`. -/
def normalizedY (clientY rectTop rectH : ℝ) : ℝ :=
  1 - max 0 (min (clientY - rectTop) rectH) / rectH

/-- One iteration of the brush loop of `handlePointerMove`: for offset `i`,
if `idx = index + i` is in bounds, lerp the sample at `idx` toward `normY`
with quadratic falloff `influence = 1 - (|i|/brushRadius)^2`. -/
def brushStep (index b : ℤ) (normY : ℝ) (d : List ℝ) (i : ℤ) : List ℝ :=
  if 0 ≤ index + i ∧ index + i < (d.length : ℤ) then
    let dist := |(i : ℝ)| / (b : ℝ)
    let influence := 1 - dist * dist
    d.set (index + i).toNat
      (d.getD (index + i).toNat 0 * (1 - influence) + normY * influence)
  else d

/-- The loop offsets `-brushRadius, ..., brushRadius` of the brush loop. -/
def brushOffsets (b : ℤ) : List ℤ :=
  (List.range (2 * b + 1).toNat).map (fun j => Int.ofNat j - b)

/-- `handlePointerMove` of `DrawingCanvas` (lines 88-108), as the new data
array it passes to `onChange`: the brush loop runs `i` from `-brushRadius`
to `brushRadius`. -/
def handlePointerMove (data : List ℝ)
    (clientX clientY rectLeft rectTop rectW rectH : ℝ) : List ℝ :=
  (brushOffsets (brushRadius data)).foldl
    (brushStep (brushIndex data clientX rectLeft rectW) (brushRadius data)
      (normalizedY clientY rectTop rectH)) data

theorem normalizedY_mem (clientY rectTop rectH : ℝ) (hH : 0 < rectH) :
    normalizedY clientY rectTop rectH ∈ Set.Icc (0 : ℝ) 1 := by
  rw [normalizedY]
  have hy0 : 0 ≤ max 0 (min (clientY - rectTop) rectH) := le_max_left _ _
  have hy1 : max 0 (min (clientY - rectTop) rectH) ≤ rectH :=
    max_le hH.le (min_le_right _ _)
  have hq0 : 0 ≤ max 0 (min (clientY - rectTop) rectH) / rectH :=
    div_nonneg hy0 hH.le
  have hq1 : max 0 (min (clientY - rectTop) rectH) / rectH ≤ 1 :=
    (div_le_one hH).mpr hy1
  constructor <;> linarith

theorem brushStep_length (index b : ℤ) (normY : ℝ) (d : List ℝ) (i : ℤ) :
    (brushStep index b normY d i).length = d.length := by
  rw [brushStep]
  split
  · rw [List.length_set]
  · rfl

theorem brushStep_mem (index b : ℤ) (normY : ℝ) (d : List ℝ) (i : ℤ)
    (hd : ∀ v ∈ d, v ∈ Set.Icc (0 : ℝ) 1) (hn : normY ∈ Set.Icc (0 : ℝ) 1)
    (hi : |i| ≤ b) :
    ∀ v ∈ brushStep index b normY d i, v ∈ Set.Icc (0 : ℝ) 1 := by
  intro v hv
  rw [brushStep] at hv
  split at hv
  · rename_i hidx
    rcases List.mem_or_eq_of_mem_set hv with hmem | heq
    · exact hd v hmem
    · subst heq
      have hklt : (index + i).toNat < d.length := by
        omega
      have hold : d.getD (index + i).toNat 0 ∈ Set.Icc (0 : ℝ) 1 := by
        refine hd _ ?_
        rw [List.getD_eq_getElem?_getD, List.getElem?_eq_getElem hklt]
        exact List.getElem_mem hklt
      have hinf : 1 - |(i : ℝ)| / (b : ℝ) * (|(i : ℝ)| / (b : ℝ)) ∈ Set.Icc (0 : ℝ) 1 := by
        rcases lt_or_eq_of_le (abs_nonneg i) with habs | habs
        · have hb0 : (0 : ℤ) < b := lt_of_lt_of_le habs hi
          have hbr : (0 : ℝ) < (b : ℝ) := by exact_mod_cast hb0
          have hdist0 : 0 ≤ |(i : ℝ)| / (b : ℝ) := div_nonneg (abs_nonneg _) hbr.le
          have hdist1 : |(i : ℝ)| / (b : ℝ) ≤ 1 := by
            rw [div_le_one hbr]
            exact_mod_cast hi
          constructor <;> nlinarith
        · have : (i : ℝ) = 0 := by
            have : |i| = 0 := habs.symm
            exact_mod_cast abs_eq_zero.mp this
          rw [this]
          norm_num
      obtain ⟨ho0, ho1⟩ := hold
      obtain ⟨hn0, hn1⟩ := hn
      obtain ⟨hf0, hf1⟩ := hinf
      constructor <;> nlinarith
  · exact hd v hv

theorem brushStep_getD_outside (index b : ℤ) (normY : ℝ) (d : List ℝ) (i : ℤ)
    (m : ℕ) (houtside : (m : ℤ) < index - b ∨ index + b < (m : ℤ))
    (hi : -b ≤ i ∧ i ≤ b) :
    (brushStep index b normY d i).getD m 0 = d.getD m 0 := by
  rw [brushStep]
  split
  · rename_i hidx
    have hne : (index + i).toNat ≠ m := by omega
    rw [List.getD_eq_getElem?_getD, List.getElem?_set_ne hne,
      List.getD_eq_getElem?_getD]
  · rfl

theorem brushFold_invariant (index b : ℤ) (normY : ℝ)
    (hn : normY ∈ Set.Icc (0 : ℝ) 1) (l : List ℤ) :
    ∀ d : List ℝ, (∀ i ∈ l, -b ≤ i ∧ i ≤ b) → (∀ v ∈ d, v ∈ Set.Icc (0 : ℝ) 1) →
      (∀ v ∈ l.foldl (brushStep index b normY) d, v ∈ Set.Icc (0 : ℝ) 1) ∧
      (∀ m : ℕ, (m : ℤ) < index - b ∨ index + b < (m : ℤ) →
        (l.foldl (brushStep index b normY) d).getD m 0 = d.getD m 0) := by
  induction l with
  | nil => intro d _ hd; exact ⟨hd, fun m _ => rfl⟩
  | cons i rest ih =>
    intro d hl hd
    have hi : -b ≤ i ∧ i ≤ b := hl i (List.mem_cons_self i rest)
    have habs : |i| ≤ b := abs_le.mpr hi
    have hd2 : ∀ v ∈ brushStep index b normY d i, v ∈ Set.Icc (0 : ℝ) 1 :=
      brushStep_mem index b normY d i hd hn habs
    have hrest : ∀ j ∈ rest, -b ≤ j ∧ j ≤ b := fun j hj => hl j (List.mem_cons_of_mem i hj)
    obtain ⟨ha, hb2⟩ := ih (brushStep index b normY d i) hrest hd2
    refine ⟨by simpa using ha, fun m hm => ?_⟩
    have := hb2 m hm
    simp only [List.foldl_cons]
    rw [this, brushStep_getD_outside index b normY d i m hm hi]

/-- Claim C10: if every sample of the data array lies in `[0,1]` (and the
canvas rect has positive height), then every sample of the array produced by
the brush-paint handler also lies in `[0,1]` — each written sample is a
convex combination of the old sample and the clamped pointer value — and
every sample outside the brush radius is unchanged. -/
theorem handlePointerMove_preserves_range (data : List ℝ)
    (clientX clientY rectLeft rectTop rectW rectH : ℝ)
    (hdata : ∀ v ∈ data, v ∈ Set.Icc (0 : ℝ) 1) (hH : 0 < rectH) :
    (∀ v ∈ handlePointerMove data clientX clientY rectLeft rectTop rectW rectH,
        v ∈ Set.Icc (0 : ℝ) 1) ∧
    (∀ m : ℕ,
      (m : ℤ) < brushIndex data clientX rectLeft rectW - brushRadius data ∨
        brushIndex data clientX rectLeft rectW + brushRadius data < (m : ℤ) →
      (handlePointerMove data clientX clientY rectLeft rectTop rectW rectH).getD m 0 =
        data.getD m 0) := by
  have hb0 : (0 : ℤ) ≤ brushRadius data := by
    rw [brushRadius]
    exact Int.floor_nonneg.mpr (by positivity)
  have hn : normalizedY clientY rectTop rectH ∈ Set.Icc (0 : ℝ) 1 :=
    normalizedY_mem clientY rectTop rectH hH
  have hl : ∀ i ∈ brushOffsets (brushRadius data),
      -brushRadius data ≤ i ∧ i ≤ brushRadius data := by
    intro i hi
    simp only [brushOffsets, List.mem_map, List.mem_range] at hi
    obtain ⟨j, hj, rfl⟩ := hi
    have hji := Int.lt_toNat.mp hj
    rw [Int.ofNat_eq_coe]
    omega
  exact brushFold_invariant (brushIndex data clientX rectLeft rectW) (brushRadius data)
    (normalizedY clientY rectTop rectH) hn _ data hl hdata

/-- Claim C10 witness: on the two-sample array `[0.5, 0.5]` (brush radius 0)
with a pointer at the left edge of a unit rect, the sample at position 1 is
outside the brush and unchanged. -/
theorem handlePointerMove_preserves_range_witness :
    (handlePointerMove [0.5, 0.5] 0 0 0 0 1 1).getD 1 0 = 0.5 := by
  have hdata : ∀ v ∈ [(0.5 : ℝ), 0.5], v ∈ Set.Icc (0 : ℝ) 1 := by
    intro v hv
    have hv5 : v = 0.5 := by simpa using hv
    rw [hv5]
    constructor <;> norm_num
  have hmain := handlePointerMove_preserves_range [0.5, 0.5] 0 0 0 0 1 1 hdata
    (by norm_num)
  have hbr : brushRadius [(0.5 : ℝ), 0.5] = 0 := by
    rw [brushRadius]
    norm_num
  have hbi : brushIndex [(0.5 : ℝ), 0.5] 0 0 1 = 0 := by
    rw [brushIndex]
    norm_num
  have h1 := hmain.2 1 (by rw [hbr, hbi]; right; norm_num)
  rw [h1]
  norm_num

/-! ### Claim C2: residual energy of the prefix reconstruction -/

theorem cos_two_pi_div_three : Real.cos (2 * π / 3) = -(1 / 2) := by
  rw [show (2 : ℝ) * π / 3 = π - π / 3 by ring, Real.cos_pi_sub, Real.cos_pi_div_three]

theorem cos_four_pi_div_three : Real.cos (4 * π / 3) = -(1 / 2) := by
  rw [show (4 : ℝ) * π / 3 = π / 3 + π by ring, Real.cos_add_pi, Real.cos_pi_div_three]

theorem cos_eight_pi_div_three : Real.cos (8 * π / 3) = -(1 / 2) := by
  rw [show (8 : ℝ) * π / 3 = 2 * π / 3 + 2 * π by ring, Real.cos_add_two_pi,
    cos_two_pi_div_three]

/-- The discrete impulse `[1, 0, 0]` (claim C2's counterexample signal). -/
def impulseSignal : List ℝ := [1, 0, 0]

theorem dftRe_impulse (k : ℕ) : dftRe impulseSignal k = 1 / 3 := by
  rw [dftRe]
  norm_num [impulseSignal, Finset.sum_range_succ, Real.cos_zero]

theorem dftIm_impulse (k : ℕ) : dftIm impulseSignal k = 0 := by
  rw [dftIm]
  norm_num [impulseSignal, Finset.sum_range_succ, Real.sin_zero]

theorem dftCoefficient_impulse (k : ℕ) :
    dftCoefficient impulseSignal k = ⟨k, if k ≠ 0 then 2 / 3 else 1 / 3, 0⟩ := by
  have hsqrt : Real.sqrt (1 / 3 * (1 / 3) + 0 * 0) = 1 / 3 := by
    rw [show (1 / 3 * (1 / 3) + 0 * 0 : ℝ) = (1 / 3) ^ 2 by ring]
    exact Real.sqrt_sq (by norm_num)
  have harg : atan2 0 (1 / 3) = 0 := by
    rw [atan2]
    exact Complex.arg_ofReal_of_nonneg (by norm_num)
  simp only [dftCoefficient, dftRe_impulse, dftIm_impulse, hsqrt, harg]
  rcases eq_or_ne k 0 with h0 | h0
  · simp [h0]
  · simp only [h0, ite_true, if_pos h0]
    norm_num

theorem computeDFT_getD (s : List ℝ) (K k : ℕ) (hk : k < K) :
    (computeDFT s K).getD k default = dftCoefficient s k := by
  rw [computeDFT, List.getD_eq_getElem?_getD, List.getElem?_map,
    List.getElem?_range hk]
  rfl

theorem reconstruct_impulse_two (t : ℝ) :
    reconstruct (computeDFT impulseSignal 2) 2 t =
      1 / 3 + 2 / 3 * Real.cos (2 * π * t) := by
  rw [reconstruct]
  have hlen : (computeDFT impulseSignal 2).length = 2 := by simp [computeDFT]
  rw [hlen, min_self, Finset.sum_range_succ, Finset.sum_range_succ,
    Finset.sum_range_zero, computeDFT_getD _ _ _ (by norm_num),
    computeDFT_getD _ _ _ (by norm_num), dftCoefficient_impulse,
    dftCoefficient_impulse]
  norm_num

theorem reconstruct_impulse_three (t : ℝ) :
    reconstruct (computeDFT impulseSignal 3) 3 t =
      1 / 3 + 2 / 3 * Real.cos (2 * π * t) + 2 / 3 * Real.cos (2 * π * 2 * t) := by
  rw [reconstruct]
  have hlen : (computeDFT impulseSignal 3).length = 3 := by simp [computeDFT]
  rw [hlen, min_self, Finset.sum_range_succ, Finset.sum_range_succ,
    Finset.sum_range_succ, Finset.sum_range_zero,
    computeDFT_getD _ _ _ (by norm_num), computeDFT_getD _ _ _ (by norm_num),
    computeDFT_getD _ _ _ (by norm_num), dftCoefficient_impulse,
    dftCoefficient_impulse, dftCoefficient_impulse]
  norm_num

theorem residualEnergy_impulse_two : residualEnergy impulseSignal 2 = 0 := by
  have r0 : reconstruct (computeDFT impulseSignal 2) 2 ((0 : ℝ) / 3) = 1 := by
    rw [reconstruct_impulse_two]
    norm_num [Real.cos_zero]
  have r1 : reconstruct (computeDFT impulseSignal 2) 2 ((1 : ℝ) / 3) = 0 := by
    rw [reconstruct_impulse_two, show 2 * π * ((1 : ℝ) / 3) = 2 * π / 3 by ring,
      cos_two_pi_div_three]
    norm_num
  have r2 : reconstruct (computeDFT impulseSignal 2) 2 ((2 : ℝ) / 3) = 0 := by
    rw [reconstruct_impulse_two, show 2 * π * ((2 : ℝ) / 3) = 4 * π / 3 by ring,
      cos_four_pi_div_three]
    norm_num
  rw [residualEnergy, show impulseSignal.length = 3 from rfl,
    Finset.sum_range_succ, Finset.sum_range_succ, Finset.sum_range_succ,
    Finset.sum_range_zero]
  push_cast
  rw [r0, r1, r2]
  norm_num [impulseSignal]

theorem residualEnergy_impulse_three : residualEnergy impulseSignal 3 = 2 / 3 := by
  have r0 : reconstruct (computeDFT impulseSignal 3) 3 ((0 : ℝ) / 3) = 5 / 3 := by
    rw [reconstruct_impulse_three]
    norm_num [Real.cos_zero]
  have r1 : reconstruct (computeDFT impulseSignal 3) 3 ((1 : ℝ) / 3) = -(1 / 3) := by
    rw [reconstruct_impulse_three, show 2 * π * ((1 : ℝ) / 3) = 2 * π / 3 by ring,
      show 2 * π * 2 * ((1 : ℝ) / 3) = 4 * π / 3 by ring,
      cos_two_pi_div_three, cos_four_pi_div_three]
    norm_num
  have r2 : reconstruct (computeDFT impulseSignal 3) 3 ((2 : ℝ) / 3) = -(1 / 3) := by
    rw [reconstruct_impulse_three, show 2 * π * ((2 : ℝ) / 3) = 4 * π / 3 by ring,
      show 2 * π * 2 * ((2 : ℝ) / 3) = 8 * π / 3 by ring,
      cos_four_pi_div_three, cos_eight_pi_div_three]
    norm_num
  rw [residualEnergy, show impulseSignal.length = 3 from rfl,
    Finset.sum_range_succ, Finset.sum_range_succ, Finset.sum_range_succ,
    Finset.sum_range_zero]
  push_cast
  rw [r0, r1, r2]
  norm_num [impulseSignal]

/-- Claim C2 counterexample: for the signal `[1, 0, 0]` (`N = 3`) the
residual energy of the reconstruction is 0 at `K = 2` but 2/3 at `K = 3`
(both with `K ≤ N`): growing `K` increases the residual energy, so it is not
monotonically non-increasing, and at `K = N` the reconstruction does not
converge to the signal at the sample points. -/
theorem residualEnergy_counterexample :
    residualEnergy impulseSignal 2 = 0 ∧ residualEnergy impulseSignal 3 = 2 / 3 ∧
      ¬ residualEnergy impulseSignal 3 ≤ residualEnergy impulseSignal 2 := by
  refine ⟨residualEnergy_impulse_two, residualEnergy_impulse_three, ?_⟩
  rw [residualEnergy_impulse_two, residualEnergy_impulse_three]
  norm_num

/-! #### Complex DFT machinery for the amended claim C2 -/

/-- The `k`-th DFT coefficient of the code, as the complex number `re + im*I`. -/
def dftC (s : List ℝ) (k : ℕ) : ℂ := ⟨dftRe s k, dftIm s k⟩

/-- The complex exponential basis `exp(2*pi*I*k*n/N)`. -/
def eN (N k n : ℕ) : ℂ := Complex.exp (2 * ↑π * Complex.I * ↑k * ↑n / ↑N)

theorem expSum (N : ℕ) (hN : 0 < N) (d : ℤ) :
    ∑ n ∈ Finset.range N, Complex.exp (2 * ↑π * Complex.I * ↑d * ↑n / ↑N) =
      if (N : ℤ) ∣ d then (N : ℂ) else 0 := by
  have hNne : (N : ℂ) ≠ 0 := Nat.cast_ne_zero.mpr hN.ne'
  have h2pi : (2 * (↑π : ℂ) * Complex.I) ≠ 0 :=
    mul_ne_zero (mul_ne_zero two_ne_zero (Complex.ofReal_ne_zero.mpr Real.pi_ne_zero))
      Complex.I_ne_zero
  have hterm : ∀ n : ℕ, Complex.exp (2 * ↑π * Complex.I * ↑d * ↑n / ↑N) =
      Complex.exp (2 * ↑π * Complex.I * ↑d / ↑N) ^ n := by
    intro n
    rw [← Complex.exp_nat_mul]
    congr 1
    ring
  rw [Finset.sum_congr rfl fun n _ => hterm n]
  by_cases hdvd : (N : ℤ) ∣ d
  · obtain ⟨m, rfl⟩ := hdvd
    have hz1 : Complex.exp (2 * ↑π * Complex.I * ↑((N : ℤ) * m) / ↑N) = 1 := by
      have harg : 2 * (↑π : ℂ) * Complex.I * ↑((N : ℤ) * m) / ↑N =
          ↑m * (2 * ↑π * Complex.I) := by
        push_cast
        field_simp
        ring
      rw [harg, Complex.exp_int_mul_two_pi_mul_I]
    rw [hz1, if_pos ⟨m, rfl⟩]
    simp
  · have hz1 : Complex.exp (2 * ↑π * Complex.I * ↑d / ↑N) ≠ 1 := by
      intro h1
      rw [Complex.exp_eq_one_iff] at h1
      obtain ⟨m, hm⟩ := h1
      apply hdvd
      have hm2 : ((d : ℂ) / ↑N) * (2 * ↑π * Complex.I) = ↑m * (2 * ↑π * Complex.I) := by
        linear_combination hm
      have hm3 := mul_right_cancel₀ h2pi hm2
      rw [div_eq_iff hNne] at hm3
      have hm5 : d = m * N := by exact_mod_cast hm3
      exact ⟨m, by rw [hm5, mul_comm]⟩
    rw [geom_sum_eq hz1, if_neg hdvd]
    have hzN : Complex.exp (2 * ↑π * Complex.I * ↑d / ↑N) ^ N = 1 := by
      rw [← Complex.exp_nat_mul]
      have harg : (N : ℂ) * (2 * ↑π * Complex.I * ↑d / ↑N) = ↑d * (2 * ↑π * Complex.I) := by
        field_simp
        ring
      rw [harg, Complex.exp_int_mul_two_pi_mul_I]
    rw [hzN]
    simp

theorem dftC_eq (s : List ℝ) (k : ℕ) :
    dftC s k = (∑ m ∈ Finset.range s.length,
      (s.getD m 0 : ℂ) *
        Complex.exp (-(2 * ↑π * Complex.I * ↑k * ↑m / ↑s.length))) / ↑s.length := by
  have hexp : ∀ m : ℕ,
      Complex.exp (-(2 * ↑π * Complex.I * ↑k * ↑m / (((s.length : ℝ)) : ℂ))) =
        Complex.exp (↑(-(2 * π * k * m / s.length) : ℝ) * Complex.I) := by
    intro m
    congr 1
    push_cast
    ring
  have hcast : ((s.length : ℕ) : ℂ) = (((s.length : ℝ)) : ℂ) := by norm_cast
  rw [hcast]
  apply Complex.ext
  · rw [Complex.div_ofReal_re, Complex.re_sum]
    show dftRe s k = _
    rw [dftRe]
    congr 1
    refine Finset.sum_congr rfl fun m _ => ?_
    rw [hexp m, Complex.re_ofReal_mul, Complex.exp_ofReal_mul_I_re, Real.cos_neg]
  · rw [Complex.div_ofReal_im, Complex.im_sum]
    show dftIm s k = _
    rw [dftIm]
    have hsum : ∑ m ∈ Finset.range s.length,
        ((s.getD m 0 : ℂ) *
          Complex.exp (-(2 * ↑π * Complex.I * ↑k * ↑m / (((s.length : ℝ)) : ℂ)))).im =
        -∑ m ∈ Finset.range s.length,
          s.getD m 0 * Real.sin (2 * π * k * m / s.length) := by
      rw [← Finset.sum_neg_distrib]
      refine Finset.sum_congr rfl fun m _ => ?_
      rw [hexp m, Complex.im_ofReal_mul, Complex.exp_ofReal_mul_I_im, Real.sin_neg]
      ring
    rw [hsum]

theorem idft (s : List ℝ) (hN : 0 < s.length) (n : ℕ) (hn : n < s.length) :
    (s.getD n 0 : ℂ) = ∑ k ∈ Finset.range s.length, dftC s k * eN s.length k n := by
  have hNne : (s.length : ℂ) ≠ 0 := Nat.cast_ne_zero.mpr hN.ne'
  have key : ∀ m k : ℕ,
      Complex.exp (-(2 * ↑π * Complex.I * ↑k * ↑m / ↑s.length)) *
        Complex.exp (2 * ↑π * Complex.I * ↑k * ↑n / ↑s.length) =
      Complex.exp (2 * ↑π * Complex.I * ↑((n : ℤ) - (m : ℤ)) * ↑k / ↑s.length) := by
    intro m k
    rw [← Complex.exp_add]
    congr 1
    push_cast
    ring
  symm
  calc ∑ k ∈ Finset.range s.length, dftC s k * eN s.length k n
      = ∑ k ∈ Finset.range s.length, ∑ m ∈ Finset.range s.length,
          (s.getD m 0 : ℂ) *
            Complex.exp (2 * ↑π * Complex.I * ↑((n : ℤ) - (m : ℤ)) * ↑k / ↑s.length) /
              ↑s.length := by
        refine Finset.sum_congr rfl fun k _ => ?_
        rw [dftC_eq, eN, div_mul_eq_mul_div, Finset.sum_mul, Finset.sum_div]
        refine Finset.sum_congr rfl fun m _ => ?_
        rw [mul_assoc, key m k]
    _ = ∑ m ∈ Finset.range s.length, (s.getD m 0 : ℂ) / ↑s.length *
          ∑ k ∈ Finset.range s.length,
            Complex.exp (2 * ↑π * Complex.I * ↑((n : ℤ) - (m : ℤ)) * ↑k / ↑s.length) := by
        rw [Finset.sum_comm]
        refine Finset.sum_congr rfl fun m _ => ?_
        rw [Finset.mul_sum]
        refine Finset.sum_congr rfl fun k _ => ?_
        ring
    _ = ∑ m ∈ Finset.range s.length, (s.getD m 0 : ℂ) / ↑s.length *
          (if ((s.length : ℕ) : ℤ) ∣ ((n : ℤ) - (m : ℤ)) then ((s.length : ℕ) : ℂ) else 0) := by
        refine Finset.sum_congr rfl fun m _ => ?_
        rw [expSum s.length hN ((n : ℤ) - (m : ℤ))]
    _ = ∑ m ∈ Finset.range s.length,
          (if m = n then (s.getD m 0 : ℂ) else 0) := by
        refine Finset.sum_congr rfl fun m hm => ?_
        rw [Finset.mem_range] at hm
        rcases eq_or_ne m n with hmn | hmn
        · subst hmn
          rw [if_pos (by simp), if_pos rfl, div_mul_cancel₀ _ hNne]
        · rw [if_neg ?_, if_neg hmn, mul_zero]
          intro hdvd
          obtain ⟨c, hc⟩ := hdvd
          have hNpos : (0 : ℤ) < (s.length : ℤ) := by exact_mod_cast hN
          have hn2 : (n : ℤ) < (s.length : ℤ) := by exact_mod_cast hn
          have hm2 : (m : ℤ) < (s.length : ℤ) := by exact_mod_cast hm
          have h0n : (0 : ℤ) ≤ (n : ℤ) := Int.natCast_nonneg n
          have h0m : (0 : ℤ) ≤ (m : ℤ) := Int.natCast_nonneg m
          have hcz : c = 0 := by
            rcases lt_trichotomy c 0 with h | h | h
            · have hcle : (s.length : ℤ) * c ≤ (s.length : ℤ) * (-1) :=
                mul_le_mul_of_nonneg_left (by omega) hNpos.le
              exfalso
              linarith [hc, hcle, h0n, hm2]
            · exact h
            · have hcge : (s.length : ℤ) * 1 ≤ (s.length : ℤ) * c :=
                mul_le_mul_of_nonneg_left (by omega) hNpos.le
              exfalso
              linarith [hc, hcge, hn2, h0m]
          rw [hcz, mul_zero] at hc
          apply hmn
          omega
    _ = (s.getD n 0 : ℂ) := by
        rw [Finset.sum_ite_eq' (Finset.range s.length) n]
        rw [if_pos (Finset.mem_range.mpr hn)]

theorem dftC_conj (s : List ℝ) (k : ℕ) (hk : k ≤ s.length) :
    dftC s (s.length - k) = starRingEnd ℂ (dftC s k) := by
  rcases Nat.eq_zero_or_pos s.length with h0 | hN
  · have hk0 : k = 0 := by omega
    subst hk0
    rw [Nat.sub_zero, h0]
    apply Complex.ext
    · rw [Complex.conj_re]
    · rw [Complex.conj_im]
      show dftIm s 0 = -dftIm s 0
      rw [dftIm_zero]
      norm_num
  · have hNne : ((s.length : ℝ)) ≠ 0 := Nat.cast_ne_zero.mpr hN.ne'
    have harg : ∀ n : ℕ, 2 * π * ((s.length : ℝ) - k) * n / s.length =
        -(2 * π * k * n / s.length) + n * (2 * π) := by
      intro n
      field_simp
      ring
    apply Complex.ext
    · rw [Complex.conj_re]
      show dftRe s (s.length - k) = dftRe s k
      rw [dftRe, dftRe]
      congr 1
      refine Finset.sum_congr rfl fun n _ => ?_
      rw [Nat.cast_sub hk, harg n, Real.cos_add_nat_mul_two_pi, Real.cos_neg]
    · rw [Complex.conj_im]
      show dftIm s (s.length - k) = -dftIm s k
      have hsum : ∑ n ∈ Finset.range s.length,
          s.getD n 0 * Real.sin (2 * π * ↑(s.length - k) * n / s.length) =
          -∑ n ∈ Finset.range s.length,
            s.getD n 0 * Real.sin (2 * π * k * n / s.length) := by
        rw [← Finset.sum_neg_distrib]
        refine Finset.sum_congr rfl fun n _ => ?_
        rw [Nat.cast_sub hk, harg n, Real.sin_add_nat_mul_two_pi, Real.sin_neg]
        ring
      rw [dftIm, dftIm, hsum]
      ring

theorem eN_conj (N k n : ℕ) (hk : k ≤ N) (hN : 0 < N) :
    starRingEnd ℂ (eN N k n) = eN N (N - k) n := by
  rw [eN, eN, ← Complex.exp_conj]
  have hNne : (N : ℂ) ≠ 0 := Nat.cast_ne_zero.mpr hN.ne'
  have h1 : starRingEnd ℂ (2 * ↑π * Complex.I * ↑k * ↑n / ↑N) =
      -(2 * ↑π * Complex.I * ↑k * ↑n / ↑N) := by
    rw [map_div₀, map_mul, map_mul, map_mul, map_mul, Complex.conj_I]
    simp only [map_ofNat, Complex.conj_ofReal, map_natCast]
    ring
  rw [h1]
  have h2 : 2 * (↑π : ℂ) * Complex.I * ↑(N - k) * ↑n / ↑N =
      -(2 * ↑π * Complex.I * ↑k * ↑n / ↑N) + ↑n * (2 * ↑π * Complex.I) := by
    rw [Nat.cast_sub hk]
    field_simp
    ring
  rw [h2, Complex.exp_add]
  have h3 : Complex.exp ((n : ℂ) * (2 * ↑π * Complex.I)) = 1 := by
    have h := Complex.exp_int_mul_two_pi_mul_I (n : ℤ)
    push_cast at h
    exact h
  rw [h3, mul_one]

theorem amp_cos_eq (re im x : ℝ) :
    Real.sqrt (re * re + im * im) * Real.cos (x + atan2 im re) =
      re * Real.cos x - im * Real.sin x := by
  rcases eq_or_ne (⟨re, im⟩ : ℂ) 0 with hz | hz
  · have hre : re = 0 := congrArg Complex.re hz
    have him : im = 0 := congrArg Complex.im hz
    rw [hre, him]
    norm_num
  · have habs : Real.sqrt (re * re + im * im) = Complex.abs ⟨re, im⟩ := by
      rw [Complex.abs_apply, Complex.normSq_apply]
    have habs0 : Complex.abs ⟨re, im⟩ ≠ 0 := Complex.abs.ne_zero hz
    rw [habs, atan2, Real.cos_add, Complex.cos_arg hz, Complex.sin_arg]
    show Complex.abs ⟨re, im⟩ *
        (Real.cos x * (re / Complex.abs ⟨re, im⟩) -
          Real.sin x * (im / Complex.abs ⟨re, im⟩)) = _
    field_simp
    ring

theorem reconstruct_eq_sum (s : List ℝ) (K : ℕ) (hK1 : 1 ≤ K) (t : ℝ) :
    reconstruct (computeDFT s K) K t =
      dftRe s 0 + ∑ k ∈ Finset.Ico 1 K,
        2 * (dftRe s k * Real.cos (2 * π * k * t) -
          dftIm s k * Real.sin (2 * π * k * t)) := by
  have hterm : ∀ k, k < K → ((computeDFT s K).getD k default).amp *
      Real.cos (2 * π * ((computeDFT s K).getD k default).freq * t +
        ((computeDFT s K).getD k default).phase) =
      (if k = 0 then 1 else 2) * (dftRe s k * Real.cos (2 * π * k * t) -
        dftIm s k * Real.sin (2 * π * k * t)) := by
    intro k hk
    rw [computeDFT_getD s K k hk, dftCoefficient]
    show (if k ≠ 0 then Real.sqrt (dftRe s k * dftRe s k + dftIm s k * dftIm s k) * 2
        else Real.sqrt (dftRe s k * dftRe s k + dftIm s k * dftIm s k)) *
        Real.cos (2 * π * k * t + atan2 (dftIm s k) (dftRe s k)) = _
    rcases eq_or_ne k 0 with h0 | h0
    · rw [if_neg (by simp [h0]), if_pos h0, amp_cos_eq, one_mul]
    · rw [if_pos h0, if_neg h0, mul_right_comm, amp_cos_eq, mul_comm]
  rw [reconstruct]
  have hlen : (computeDFT s K).length = K := by simp [computeDFT]
  rw [hlen, min_self, Finset.range_eq_Ico,
    Finset.sum_eq_sum_Ico_succ_bot (by omega : 0 < K)]
  congr 1
  · rw [hterm 0 (by omega)]
    norm_num
  · refine Finset.sum_congr rfl fun k hk => ?_
    rw [Finset.mem_Ico] at hk
    rw [hterm k hk.2, if_neg (by omega)]

theorem pair_term (s : List ℝ) (hN : 0 < s.length) (k n : ℕ) (hk1 : 1 ≤ k)
    (hk : k < s.length) :
    ((2 * (dftRe s k * Real.cos (2 * π * k * ((n : ℝ) / s.length)) -
        dftIm s k * Real.sin (2 * π * k * ((n : ℝ) / s.length))) : ℝ) : ℂ) =
      dftC s k * eN s.length k n +
        dftC s (s.length - k) * eN s.length (s.length - k) n := by
  have h2 : dftC s (s.length - k) * eN s.length (s.length - k) n =
      starRingEnd ℂ (dftC s k * eN s.length k n) := by
    rw [map_mul, ← dftC_conj s k hk.le, ← eN_conj s.length k n hk.le hN]
  rw [h2, Complex.add_conj]
  have hre : (dftC s k * eN s.length k n).re =
      dftRe s k * Real.cos (2 * π * k * n / s.length) -
        dftIm s k * Real.sin (2 * π * k * n / s.length) := by
    rw [eN, show (2 * (↑π : ℂ) * Complex.I * ↑k * ↑n / ↑s.length) =
      ((2 * π * k * n / s.length : ℝ) : ℂ) * Complex.I from by push_cast; ring]
    rw [Complex.mul_re, Complex.exp_ofReal_mul_I_re, Complex.exp_ofReal_mul_I_im]
    rfl
  rw [hre]
  norm_cast
  ring

/-- The harmonic indices covered by the order-`K` reconstruction at the
sample points: `0, ..., K-1` and their aliases `N-1, ..., N-(K-1)`. -/
def dftSupport (N K : ℕ) : Finset ℕ :=
  Finset.range K ∪ (Finset.Ico 1 K).image (fun k => N - k)

theorem residual_repr (s : List ℝ) (hN : 0 < s.length) (K : ℕ)
    (hK : 2 * K ≤ s.length + 1) (n : ℕ) (hn : n < s.length) :
    ((s.getD n 0 - reconstruct (computeDFT s K) K ((n : ℝ) / s.length) : ℝ) : ℂ) =
      ∑ k ∈ Finset.range s.length \ dftSupport s.length K,
        dftC s k * eN s.length k n := by
  have hsub : dftSupport s.length K ⊆ Finset.range s.length := by
    rw [dftSupport]
    intro j hj
    rw [Finset.mem_union] at hj
    rcases hj with hj | hj
    · rw [Finset.mem_range] at hj ⊢
      omega
    · rw [Finset.mem_image] at hj
      obtain ⟨k, hk, rfl⟩ := hj
      rw [Finset.mem_Ico] at hk
      rw [Finset.mem_range]
      omega
  rw [Finset.sum_sdiff_eq_sub hsub, ← idft s hN n hn]
  have hrecon : ((reconstruct (computeDFT s K) K ((n : ℝ) / s.length) : ℝ) : ℂ) =
      ∑ k ∈ dftSupport s.length K, dftC s k * eN s.length k n := by
    rcases Nat.eq_zero_or_pos K with hK0 | hK1
    · subst hK0
      rw [reconstruct]
      simp [dftSupport]
    · rw [reconstruct_eq_sum s K hK1, dftSupport]
      have hdisj : Disjoint (Finset.range K)
          ((Finset.Ico 1 K).image (fun k => s.length - k)) := by
        rw [Finset.disjoint_right]
        intro j hj hj2
        rw [Finset.mem_image] at hj
        obtain ⟨k, hk, rfl⟩ := hj
        rw [Finset.mem_Ico] at hk
        rw [Finset.mem_range] at hj2
        omega
      have hinj : Set.InjOn (fun k => s.length - k) (Finset.Ico 1 K) := by
        intro a ha b hb hab
        rw [Finset.coe_Ico, Set.mem_Ico] at ha hb
        simp only at hab
        omega
      rw [Finset.sum_union hdisj, Finset.sum_image hinj, Finset.range_eq_Ico,
        Finset.sum_eq_sum_Ico_succ_bot (by omega : 0 < K)]
      have he0 : eN s.length 0 n = 1 := by
        rw [eN]
        norm_num [Complex.exp_zero]
      have hc0 : dftC s 0 = ((dftRe s 0 : ℝ) : ℂ) := by
        apply Complex.ext
        · rfl
        · rw [Complex.ofReal_im]
          exact dftIm_zero s
      rw [he0, hc0, mul_one]
      simp only [Nat.zero_add]
      rw [add_assoc, ← Finset.sum_add_distrib, Complex.ofReal_add]
      congr 1
      rw [Complex.ofReal_sum]
      refine Finset.sum_congr rfl fun k hk => ?_
      rw [Finset.mem_Ico] at hk
      exact pair_term s hN k n hk.1 (by omega)
  rw [Complex.ofReal_sub, hrecon]

theorem dvd_sub_iff_eq (N k j : ℕ) (hk : k < N) (hj : j < N) :
    (N : ℤ) ∣ ((k : ℤ) - (j : ℤ)) ↔ k = j := by
  constructor
  · intro hdvd
    obtain ⟨c, hc⟩ := hdvd
    have hNpos : (0 : ℤ) < (N : ℤ) := by exact_mod_cast (show 0 < N by omega)
    have hk2 : (k : ℤ) < N := by exact_mod_cast hk
    have hj2 : (j : ℤ) < N := by exact_mod_cast hj
    have h0k : (0 : ℤ) ≤ k := Int.natCast_nonneg k
    have h0j : (0 : ℤ) ≤ j := Int.natCast_nonneg j
    have hcz : c = 0 := by
      rcases lt_trichotomy c 0 with h | h | h
      · have hcle : (N : ℤ) * c ≤ (N : ℤ) * (-1) :=
          mul_le_mul_of_nonneg_left (by omega) hNpos.le
        exfalso
        linarith
      · exact h
      · have hcge : (N : ℤ) * 1 ≤ (N : ℤ) * c :=
          mul_le_mul_of_nonneg_left (by omega) hNpos.le
        exfalso
        linarith
    rw [hcz, mul_zero] at hc
    omega
  · rintro rfl
    simp

theorem sum_normSq (N : ℕ) (hN : 0 < N) (T : Finset ℕ) (hT : T ⊆ Finset.range N)
    (f : ℕ → ℂ) :
    ∑ n ∈ Finset.range N, ((∑ k ∈ T, f k * eN N k n) *
        starRingEnd ℂ (∑ j ∈ T, f j * eN N j n)) =
      (N : ℂ) * ∑ k ∈ T, (Complex.normSq (f k) : ℂ) := by
  have hprod : ∀ k j n : ℕ, eN N k n * starRingEnd ℂ (eN N j n) =
      Complex.exp (2 * ↑π * Complex.I * ↑((k : ℤ) - (j : ℤ)) * ↑n / ↑N) := by
    intro k j n
    rw [eN, eN, ← Complex.exp_conj]
    have hc : starRingEnd ℂ (2 * ↑π * Complex.I * ↑j * ↑n / ↑N) =
        -(2 * ↑π * Complex.I * ↑j * ↑n / ↑N) := by
      rw [map_div₀, map_mul, map_mul, map_mul, map_mul, Complex.conj_I]
      simp only [map_ofNat, Complex.conj_ofReal, map_natCast]
      ring
    rw [hc, ← Complex.exp_add]
    congr 1
    push_cast
    ring
  calc ∑ n ∈ Finset.range N, ((∑ k ∈ T, f k * eN N k n) *
        starRingEnd ℂ (∑ j ∈ T, f j * eN N j n))
      = ∑ n ∈ Finset.range N, ∑ k ∈ T, ∑ j ∈ T,
          f k * starRingEnd ℂ (f j) *
            Complex.exp (2 * ↑π * Complex.I * ↑((k : ℤ) - (j : ℤ)) * ↑n / ↑N) := by
        refine Finset.sum_congr rfl fun n _ => ?_
        rw [map_sum, Finset.sum_mul_sum]
        refine Finset.sum_congr rfl fun k _ => Finset.sum_congr rfl fun j _ => ?_
        rw [map_mul, ← hprod k j n]
        ring
    _ = ∑ k ∈ T, ∑ j ∈ T, f k * starRingEnd ℂ (f j) *
          ∑ n ∈ Finset.range N,
            Complex.exp (2 * ↑π * Complex.I * ↑((k : ℤ) - (j : ℤ)) * ↑n / ↑N) := by
        rw [Finset.sum_comm]
        refine Finset.sum_congr rfl fun k _ => ?_
        rw [Finset.sum_comm]
        refine Finset.sum_congr rfl fun j _ => ?_
        rw [Finset.mul_sum]
    _ = ∑ k ∈ T, ∑ j ∈ T, f k * starRingEnd ℂ (f j) *
          (if (N : ℤ) ∣ ((k : ℤ) - (j : ℤ)) then (N : ℂ) else 0) := by
        refine Finset.sum_congr rfl fun k _ => Finset.sum_congr rfl fun j _ => ?_
        rw [expSum N hN]
    _ = ∑ k ∈ T, f k * starRingEnd ℂ (f k) * N := by
        refine Finset.sum_congr rfl fun k hk => ?_
        rw [Finset.sum_eq_single_of_mem k hk]
        · rw [if_pos (by simp)]
        · intro j hj hjk
          rw [if_neg, mul_zero]
          rw [dvd_sub_iff_eq N k j (Finset.mem_range.mp (hT hk))
            (Finset.mem_range.mp (hT hj))]
          omega
    _ = (N : ℂ) * ∑ k ∈ T, (Complex.normSq (f k) : ℂ) := by
        rw [Finset.mul_sum]
        refine Finset.sum_congr rfl fun k _ => ?_
        rw [Complex.mul_conj]
        ring

theorem residualEnergy_eq (s : List ℝ) (hN : 0 < s.length) (K : ℕ)
    (hK : 2 * K ≤ s.length + 1) :
    residualEnergy s K = s.length *
      ∑ k ∈ Finset.range s.length \ dftSupport s.length K,
        Complex.normSq (dftC s k) := by
  have hsdiff : Finset.range s.length \ dftSupport s.length K ⊆ Finset.range s.length :=
    Finset.sdiff_subset
  apply Complex.ofReal_inj.mp
  calc ((residualEnergy s K : ℝ) : ℂ)
      = ∑ n ∈ Finset.range s.length,
          (((s.getD n 0 - reconstruct (computeDFT s K) K ((n : ℝ) / s.length) : ℝ)) : ℂ) *
            starRingEnd ℂ
              (((s.getD n 0 - reconstruct (computeDFT s K) K ((n : ℝ) / s.length) : ℝ)) : ℂ) := by
        rw [residualEnergy, Complex.ofReal_sum]
        refine Finset.sum_congr rfl fun n _ => ?_
        rw [Complex.conj_ofReal, ← Complex.ofReal_mul, ← sq]
    _ = ∑ n ∈ Finset.range s.length,
          ((∑ k ∈ Finset.range s.length \ dftSupport s.length K,
              dftC s k * eN s.length k n) *
            starRingEnd ℂ (∑ j ∈ Finset.range s.length \ dftSupport s.length K,
              dftC s j * eN s.length j n)) := by
        refine Finset.sum_congr rfl fun n hn => ?_
        rw [Finset.mem_range] at hn
        rw [residual_repr s hN K hK n hn]
    _ = ((s.length : ℕ) : ℂ) *
          ∑ k ∈ Finset.range s.length \ dftSupport s.length K,
            (Complex.normSq (dftC s k) : ℂ) :=
        sum_normSq s.length hN _ hsdiff _
    _ = _ := by
        push_cast
        ring

theorem dftC_replicate (N : ℕ) (hN : 0 < N) (c : ℝ) (k : ℕ) (hk1 : 0 < k)
    (hk : k < N) : dftC (List.replicate N c) k = 0 := by
  have hlen : (List.replicate N c).length = N := List.length_replicate N c
  have hget : ∀ m, m < N → (List.replicate N c).getD m 0 = c := by
    intro m hm
    rw [List.getD_eq_getElem?_getD,
      List.getElem?_eq_getElem (by rw [hlen]; exact hm), List.getElem_replicate]
    rfl
  rw [dftC_eq, hlen]
  have hterm : ∀ m ∈ Finset.range N,
      ((List.replicate N c).getD m 0 : ℂ) *
        Complex.exp (-(2 * ↑π * Complex.I * ↑k * ↑m / ↑N)) =
      (c : ℂ) * Complex.exp (2 * ↑π * Complex.I * ↑(-(k : ℤ)) * ↑m / ↑N) := by
    intro m hm
    rw [Finset.mem_range] at hm
    rw [hget m hm]
    congr 2
    push_cast
    ring
  rw [Finset.sum_congr rfl hterm, ← Finset.mul_sum, expSum N hN (-(k : ℤ)), if_neg]
  · simp
  · intro hdvd
    rw [Int.dvd_neg] at hdvd
    have hNk : N ∣ k := by exact_mod_cast hdvd
    have := Nat.le_of_dvd hk1 hNk
    omega

theorem reconstruct_replicate (N : ℕ) (hN : 0 < N) (c : ℝ) (K : ℕ) (hK1 : 1 ≤ K)
    (hKN : K ≤ N) (t : ℝ) :
    reconstruct (computeDFT (List.replicate N c) K) K t = c := by
  have hlen : (List.replicate N c).length = N := List.length_replicate N c
  have hget : ∀ m, m < N → (List.replicate N c).getD m 0 = c := by
    intro m hm
    rw [List.getD_eq_getElem?_getD,
      List.getElem?_eq_getElem (by rw [hlen]; exact hm), List.getElem_replicate]
    rfl
  rw [reconstruct_eq_sum _ K hK1]
  have hre0 : dftRe (List.replicate N c) 0 = c := by
    rw [dftRe, hlen]
    have hterm : ∀ m ∈ Finset.range N,
        (List.replicate N c).getD m 0 * Real.cos (2 * π * ↑(0 : ℕ) * ↑m / ↑N) = c := by
      intro m hm
      rw [Finset.mem_range] at hm
      rw [hget m hm]
      norm_num
    rw [Finset.sum_congr rfl hterm, Finset.sum_const, Finset.card_range, nsmul_eq_mul]
    field_simp
  have hzero : ∀ k ∈ Finset.Ico 1 K,
      2 * (dftRe (List.replicate N c) k * Real.cos (2 * π * k * t) -
        dftIm (List.replicate N c) k * Real.sin (2 * π * k * t)) = 0 := by
    intro k hk
    rw [Finset.mem_Ico] at hk
    have hc := dftC_replicate N hN c k (by omega) (by omega)
    have hre : dftRe (List.replicate N c) k = 0 := congrArg Complex.re hc
    have him : dftIm (List.replicate N c) k = 0 := congrArg Complex.im hc
    rw [hre, him]
    ring
  rw [hre0, Finset.sum_congr rfl hzero, Finset.sum_const_zero, add_zero]

/-- Claim C2 amended: for every signal of length `N > 0`, the residual
energy of the code's reconstruction against the signal at the sample points
is monotonically non-increasing as `K` grows while `2K < N` (all harmonics
strictly below the Nyquist pair bound), and for odd `N` it reaches exactly 0
at `K = (N+1)/2` — the reconstruction converges to the signal at the sample
points at `K = (N+1)/2`, not at `K = N`, because each coefficient `k > N/2`
is doubled and aliases a lower harmonic; for a constant signal the
reconstruction equals the constant (the mean/DC term alone) for every
`1 ≤ K ≤ N` and every `t`. -/
theorem residualEnergy_monotone (s : List ℝ) (hN : 0 < s.length) :
    (∀ K : ℕ, 2 * K < s.length →
      residualEnergy s (K + 1) ≤ residualEnergy s K) ∧
    (s.length % 2 = 1 → residualEnergy s ((s.length + 1) / 2) = 0) ∧
    (∀ (c : ℝ) (K : ℕ) (t : ℝ), s = List.replicate s.length c → 1 ≤ K →
      K ≤ s.length → reconstruct (computeDFT s K) K t = c) := by
  refine ⟨?_, ?_, ?_⟩
  · intro K hK2
    rw [residualEnergy_eq s hN K (by omega), residualEnergy_eq s hN (K + 1) (by omega)]
    apply mul_le_mul_of_nonneg_left ?_ (by positivity)
    apply Finset.sum_le_sum_of_subset_of_nonneg
    · apply Finset.sdiff_subset_sdiff (le_refl _)
      rw [dftSupport, dftSupport]
      apply Finset.union_subset_union
      · exact Finset.range_subset.mpr (by omega)
      · exact Finset.image_subset_image (Finset.Ico_subset_Ico (le_refl 1) (by omega))
    · intro k _ _
      exact Complex.normSq_nonneg _
  · intro hodd
    rw [residualEnergy_eq s hN _ (by omega)]
    have hempty : Finset.range s.length \
        dftSupport s.length ((s.length + 1) / 2) = ∅ := by
      rw [Finset.sdiff_eq_empty_iff_subset]
      intro j hj
      rw [Finset.mem_range] at hj
      rw [dftSupport, Finset.mem_union]
      by_cases hjK : j < (s.length + 1) / 2
      · left
        exact Finset.mem_range.mpr hjK
      · right
        rw [Finset.mem_image]
        refine ⟨s.length - j, ?_, by omega⟩
        rw [Finset.mem_Ico]
        omega
    rw [hempty]
    simp
  · intro c K t hs hK1 hKN
    conv_lhs => rw [hs]
    exact reconstruct_replicate s.length hN c K hK1 hKN t

/-- Claim C2 amended, witness on the impulse `[1,0,0]` (monotone step
`K = 0 → 1` and exactness at `K = (3+1)/2 = 2`) and on a constant signal. -/
theorem residualEnergy_monotone_witness :
    residualEnergy impulseSignal 1 ≤ residualEnergy impulseSignal 0 ∧
      residualEnergy impulseSignal 2 = 0 ∧
      reconstruct (computeDFT (List.replicate 2 (0.5 : ℝ)) 1) 1 0 = 0.5 := by
  have h3 : 0 < impulseSignal.length := by norm_num [impulseSignal]
  refine ⟨(residualEnergy_monotone impulseSignal h3).1 0 (by norm_num [impulseSignal]),
    ?_, ?_⟩
  · have h := (residualEnergy_monotone impulseSignal h3).2.1
      (by norm_num [impulseSignal])
    simpa [impulseSignal] using h
  · exact (residualEnergy_monotone (List.replicate 2 (0.5 : ℝ)) (by norm_num)).2.2
      0.5 1 0 rfl (by norm_num) (by norm_num)

end FrequencyCanvas
